import Mathlib

/-!
Shallow embedding of the royalty-accounting core of the `music_label`
example: `RoyaltyManager` (royalty computation, reconciliation, split and
advance setters), `ContractManager` (split verification and audited split
updates) and `Director.escalate` (escalation routing), translated from
`src/examples/music_label/agents/royalty_manager.py`,
`contract_manager.py` and `director.py`.

Modelling conventions:
* Python `Decimal` amounts and `float` fractions are modelled as `ℚ`
  (exact arithmetic; `Decimal` arithmetic on these operations is exact
  except for the explicit `quantize` call, modelled by `roundHalfUpCents`).
* Python `dict[str, X]` is an insertion-ordered association list
  `List (String × X)` with first-match lookup (`dget`) and
  replace-or-append assignment (`dset`).
* Methods that mutate `self` take the state and return the new state;
  `datetime.utcnow()` timestamps are passed in as an explicit `now`
  argument (they never influence control flow).
* A Python `raise` is an `Except.error`.
-/

namespace MusicLabel

section RatKernelComputable

/- Batteries tags the `Rat` field operations `@[irreducible]`; making them
semireducible inside this section lets `decide` evaluate concrete rational
arithmetic (reducibility has no bearing on soundness). -/
attribute [local semireducible] Rat.add Rat.mul Rat.sub Rat.inv

/-- First-match lookup in an association list: Python `d.get(k)`. -/
def dget {α : Type} : List (String × α) → String → Option α
  | [], _ => none
  | (k', v) :: rest, k => if k' = k then some v else dget rest k

/-- Dict assignment `d[k] = v`: replaces the value of an existing key in
place, otherwise appends the new key at the end (insertion order). -/
def dset {α : Type} : List (String × α) → String → α → List (String × α)
  | [], k, v => [(k, v)]
  | (k', v') :: rest, k, v =>
    if k' = k then (k, v) :: rest else (k', v') :: dset rest k v

/-- One revenue row from the revenue feed (`revenue_data` entries in
`RoyaltyManager.calculate`).  `artist`/`track` are `none` when the key is
absent from the Python dict (`row.get("artist")` / `row.get("track")`). -/
structure RevenueRow where
  artist : Option String
  track : Option String
  revenue : ℚ
  streams : Int
deriving Repr, DecidableEq

/-- `ArtistPayout` dataclass from `royalty_manager.py`. -/
structure ArtistPayout where
  artist : String
  quarter : String
  gross_revenue : ℚ
  split_pct : ℚ
  artist_share : ℚ
  advance_deducted : ℚ
  net_payout : ℚ
  tracks_count : Nat
  streams_count : Int
deriving Repr, DecidableEq

/-- The mutable state of a `RoyaltyManager` that the modelled operations
touch: the splits cache and the advances cache (the remaining dataclass
fields are external collaborators or constants never read by them). -/
structure RMState where
  splits_cache : List (String × ℚ)
  advances_cache : List (String × ℚ)
deriving Repr, DecidableEq

/-- Computable floor of a rational (the `Int.floor` of `ℚ` does not
kernel-reduce; this definition does, and `ratFloor_eq_floor` links it to
the Mathlib API). -/
def ratFloor (x : ℚ) : ℤ := x.num / (x.den : ℤ)

theorem ratFloor_eq_floor (x : ℚ) : ratFloor x = ⌊x⌋ := Rat.floor_def.symm

/-- `Decimal.quantize(Decimal("0.01"), rounding=ROUND_HALF_UP)`: round to
a multiple of 1/100, ties away from zero. -/
def roundHalfUpCents (x : ℚ) : ℚ :=
  if 0 ≤ x.num then (ratFloor (x * 100 + 1 / 2) : ℚ) / 100
  else -((ratFloor (-x * 100 + 1 / 2) : ℚ) / 100)

/-- `RoyaltyManager.apply_split`: looks up the artist's split fraction and
returns the rounded share; raises `RoyaltyCalculationError` when the
artist has no split. -/
def apply_split (st : RMState) (revenue : ℚ) (artist : String) :
    Except String ℚ :=
  match dget st.splits_cache artist with
  | none => .error ("Split not found for artist " ++ artist)
  | some split_pct => .ok (roundHalfUpCents (revenue * split_pct))

/-- `if artist and a != artist: continue` — a row is kept when the filter
is `None` (or the empty string, which is falsy in Python) or equals the
row's artist key. -/
def keepRow (filt : Option String) (a : String) : Bool :=
  match filt with
  | none => true
  | some f => f = "" || a = f

/-- `by_artist.setdefault(a, []).append(row)`: append the row to the entry
of key `a`, creating the entry at the end when absent. -/
def addRow (acc : List (String × List RevenueRow)) (a : String)
    (r : RevenueRow) : List (String × List RevenueRow) :=
  match acc with
  | [] => [(a, [r])]
  | (k, rs) :: rest =>
    if k = a then (k, rs ++ [r]) :: rest else (k, rs) :: addRow rest a r

/-- The grouping loop of `calculate`: partition the kept rows by artist
key (`row.get("artist", "Unknown")`), in insertion order. -/
def groupRows (filt : Option String) :
    List RevenueRow → List (String × List RevenueRow) →
    List (String × List RevenueRow)
  | [], acc => acc
  | r :: rest, acc =>
    let a := r.artist.getD "Unknown"
    if keepRow filt a then groupRows filt rest (addRow acc a r)
    else groupRows filt rest acc

def groupByArtist (filt : Option String) (rows : List RevenueRow) :
    List (String × List RevenueRow) :=
  groupRows filt rows []

/-- Per-artist accumulator of the inner row loop of `calculate`:
`gross`, `streams`, and the set of distinct truthy track ids (modelled as
a duplicate-free list; only its length is used). -/
structure Agg where
  gross : ℚ
  streams : Int
  tracks : List String
deriving Repr, DecidableEq

def addTrack (ts : List String) (t : String) : List String :=
  if t ∈ ts then ts else ts ++ [t]

/-- One iteration of the inner row loop of `calculate`. -/
def aggStep (ag : Agg) (r : RevenueRow) : Agg :=
  { gross := ag.gross + r.revenue
    streams := ag.streams + r.streams
    tracks :=
      match r.track with
      | none => ag.tracks
      | some t => if t = "" then ag.tracks else addTrack ag.tracks t }

/-- The inner row loop of `calculate`, folding `aggStep` left to right. -/
def aggRows : List RevenueRow → Agg → Agg
  | [], ag => ag
  | r :: rest, ag => aggRows rest (aggStep ag r)

/-- The body of the per-artist loop of `calculate`: aggregate the rows,
apply the split (skipping the artist when it raises), net the advance. -/
def calcStep (st : RMState) (quarter : String) (artist_name : String)
    (rows : List RevenueRow) : Option ArtistPayout :=
  let ag := aggRows rows { gross := 0, streams := 0, tracks := [] }
  match apply_split st ag.gross artist_name with
  | .error _ => none
  | .ok artist_share =>
    let advance := (dget st.advances_cache artist_name).getD 0
    let deducted := min advance artist_share
    let net := artist_share - deducted
    some
      { artist := artist_name
        quarter := quarter
        gross_revenue := ag.gross
        split_pct := (dget st.splits_cache artist_name).getD 0
        artist_share := artist_share
        advance_deducted := deducted
        net_payout := net
        tracks_count := ag.tracks.length
        streams_count := ag.streams }

/-- The per-artist loop of `calculate`, threading the manager state (the
body only reads it). -/
def calcLoop (quarter : String) :
    RMState → List (String × List RevenueRow) → RMState × List ArtistPayout
  | st, [] => (st, [])
  | st, (a, rows) :: rest =>
    match calcStep st quarter a rows with
    | none => calcLoop quarter st rest
    | some p =>
      let r := calcLoop quarter st rest
      (r.1, p :: r.2)

/-- `RoyaltyManager.calculate(quarter, artist, revenue_data)`: group the
revenue rows by artist, then emit one payout per grouped artist that has
a split.  Returns the resulting state together with the payout list. -/
def calculate (st : RMState) (quarter : String) (artist : Option String)
    (revenue_data : List RevenueRow) : RMState × List ArtistPayout :=
  calcLoop quarter st (groupByArtist artist revenue_data)

/-- `RoyaltyManager.set_split`: stores the fraction in the splits cache
(no validation, no audit log — the docstring marks it as a test helper). -/
def set_split (st : RMState) (artist : String) (split_pct : ℚ) : RMState :=
  { st with splits_cache := dset st.splits_cache artist split_pct }

/-- `RoyaltyManager.set_advance`: stores the amount in the advances cache
(no validation). -/
def set_advance (st : RMState) (artist : String) (amount : ℚ) : RMState :=
  { st with advances_cache := dset st.advances_cache artist amount }

/-- One reconciliation discrepancy record (`reconcile` emits dicts; the
`actual`/`difference` keys are only present on `amount_mismatch`). -/
structure Discrepancy where
  artist : String
  quarter : String
  type : String
  calculated : ℚ
  actual : Option ℚ := none
  difference : Option ℚ := none
deriving Repr, DecidableEq

/-- The per-payout body of the `reconcile` loop. -/
def reconStep (quarter : String) (actual_payouts : List (String × ℚ))
    (payout : ArtistPayout) : Option Discrepancy :=
  match dget actual_payouts payout.artist with
  | none =>
    some
      { artist := payout.artist, quarter := quarter
        type := "missing_actual", calculated := payout.net_payout }
  | some actual =>
    if actual ≠ payout.net_payout then
      some
        { artist := payout.artist, quarter := quarter
          type := "amount_mismatch", calculated := payout.net_payout
          actual := some actual
          difference := some (actual - payout.net_payout) }
    else none

/-- `RoyaltyManager.reconcile(quarter, calculated, actual_payouts)`.
`if not calculated or not actual_payouts: return []` — `None` arguments
default to the falsy empty collection, so both are modelled as lists. -/
def reconcile (quarter : String) (calculated : List ArtistPayout)
    (actual_payouts : List (String × ℚ)) : List Discrepancy :=
  if calculated.isEmpty || actual_payouts.isEmpty then []
  else calculated.filterMap (reconStep quarter actual_payouts)

/-! ### ContractManager (`contract_manager.py`) -/

/-- `ContractRecord` dataclass from `contract_manager.py`. -/
structure ContractRecord where
  artist : String
  split_pct : ℚ
  signed_date : Option String := none
  expiry_date : Option String := none
  file_path : Option String := none
  file_type : String := "pdf"
  status : String := "active"
  notes : String := ""
deriving Repr, DecidableEq

/-- One mismatch dict emitted by `ContractManager.verify_splits` (the
`db_split` key is only present on a value mismatch). -/
structure SplitMismatchRec where
  artist : String
  type : String
  contract_split : ℚ
  db_split : Option ℚ := none
deriving Repr, DecidableEq

/-- The per-contract body of the `verify_splits` loop. -/
def verifyStep (db_splits : List (String × ℚ)) (contract : ContractRecord) :
    Option SplitMismatchRec :=
  match dget db_splits contract.artist with
  | none =>
    some
      { artist := contract.artist, type := "missing_in_db"
        contract_split := contract.split_pct }
  | some db_pct =>
    if |db_pct - contract.split_pct| > 1 / 1000 then
      some
        { artist := contract.artist, type := "mismatch"
          contract_split := contract.split_pct, db_split := some db_pct }
    else none

/-- `ContractManager.verify_splits(db_splits)`: walks `self.contracts`
and compares each contract's split against the DB splits map (`None`
defaults to the empty dict). -/
def verify_splits (contracts : List ContractRecord)
    (db_splits : List (String × ℚ)) : List SplitMismatchRec :=
  contracts.filterMap (verifyStep db_splits)

/-- An entry of `ContractManager._audit_log`. -/
structure AuditEntry where
  timestamp : String
  artist : String
  old_split : ℚ
  new_split : ℚ
  reason : String
  changed_by : String
deriving Repr, DecidableEq

/-- The state of a `ContractManager` touched by the modelled operations:
its name (recorded in audit entries), the contract registry, and the
append-only audit log. -/
structure CMState where
  name : String
  contracts : List ContractRecord
  audit_log : List AuditEntry
deriving Repr, DecidableEq

/-- The `for c in self.contracts: if c.artist == artist` first-match scan
of `update_split`. -/
def findContract : List ContractRecord → String → Option ContractRecord
  | [], _ => none
  | c :: rest, artist =>
    if c.artist = artist then some c else findContract rest artist

/-- `contract.split_pct = new_pct` on the first matching record. -/
def setContractSplit :
    List ContractRecord → String → ℚ → List ContractRecord
  | [], _, _ => []
  | c :: rest, artist, new_pct =>
    if c.artist = artist then { c with split_pct := new_pct } :: rest
    else c :: setContractSplit rest artist new_pct

/-- `ContractManager.update_split(artist, new_pct, reason)`: validates
`0.0 <= new_pct <= 1.0`, finds the contract (raising `ContractError`
otherwise), mutates its split and appends one audit entry.  `now` stands
for `datetime.utcnow().isoformat()`. -/
def update_split (st : CMState) (now : String) (artist : String)
    (new_pct : ℚ) (reason : String) : Except String (CMState × AuditEntry) :=
  if ¬ (0 ≤ new_pct ∧ new_pct ≤ 1) then
    .error "Invalid split percentage. Must be 0.0-1.0."
  else
    match findContract st.contracts artist with
    | none => .error ("Contract not found for artist: " ++ artist)
    | some contract =>
      let entry : AuditEntry :=
        { timestamp := now, artist := artist
          old_split := contract.split_pct, new_split := new_pct
          reason := reason, changed_by := st.name }
      .ok
        ({ st with
            contracts := setContractSplit st.contracts artist new_pct
            audit_log := st.audit_log ++ [entry] },
         entry)

/-! ### Director (`director.py`) -/

/-- `EscalationRule` dataclass from `director.py`. -/
structure EscalationRule where
  from_agent : String
  condition : String
  action : String
deriving Repr, DecidableEq

/-- Python `str.lower()` (ASCII case folding, via `Char.toLower`; the
shipped rule conditions are ASCII). -/
def strLower (s : String) : String := String.mk (s.data.map Char.toLower)

/-- Membership of `needle` as a contiguous run at the head of `hay`. -/
def startsWith {α : Type} [DecidableEq α] : List α → List α → Bool
  | [], _ => true
  | _ :: _, [] => false
  | a :: as, b :: bs => a = b && startsWith as bs

/-- Python `needle in hay` on strings: contiguous-subsequence test. -/
def containsSeq {α : Type} [DecidableEq α] (needle : List α) :
    List α → Bool
  | [] => needle.isEmpty
  | b :: bs => startsWith needle (b :: bs) || containsSeq needle bs

def substrB (needle hay : String) : Bool := containsSeq needle.data hay.data

/-- The rule test of the `escalate` loop:
`rule.from_agent == from_agent and rule.condition in issue.lower()`. -/
def ruleHits (rule : EscalationRule) (from_agent : String)
    (issue : String) : Bool :=
  rule.from_agent = from_agent && substrB rule.condition (strLower issue)

/-- The `for rule in self.escalation_rules` first-match loop. -/
def escFind (from_agent issue : String) :
    List EscalationRule → Option EscalationRule
  | [] => none
  | rule :: rest =>
    if ruleHits rule from_agent issue then some rule
    else escFind from_agent issue rest

/-- An entry of `Director._decision_log` written by `escalate`. -/
structure DecisionEntry where
  timestamp : String
  action : String
  from_agent : String
  issue : String
  rule_action : String
deriving Repr, DecidableEq

/-- The state of a `Director` touched by `escalate`. -/
structure DirState where
  escalation_rules : List EscalationRule
  decision_log : List DecisionEntry
deriving Repr, DecidableEq

/-- The dict `escalate` returns. -/
structure EscResult where
  action : String
  message : String
deriving Repr, DecidableEq

/-- `Director.escalate(issue, from_agent)`: first matching rule wins and
is logged; otherwise the default is to notify the administrator.  `now`
stands for `datetime.utcnow().isoformat()`. -/
def escalate (st : DirState) (now : String) (issue : String)
    (from_agent : String) : DirState × EscResult :=
  match escFind from_agent issue st.escalation_rules with
  | some rule =>
    ({ st with
        decision_log := st.decision_log ++
          [{ timestamp := now, action := "escalation"
             from_agent := from_agent, issue := issue.take 120
             rule_action := rule.action }] },
     { action := rule.action
       message := "Escalation from " ++ from_agent ++ ": " ++ issue })
  | none =>
    (st,
     { action := "notify_admin"
       message := "Unmatched escalation from " ++ from_agent ++ ": " ++ issue })

/-! ### Helper lemmas -/

theorem dget_mem {α : Type} {d : List (String × α)} {k : String} {v : α}
    (h : dget d k = some v) : (k, v) ∈ d := by
  induction d with
  | nil => simp [dget] at h
  | cons kv rest ih =>
    obtain ⟨k', v'⟩ := kv
    by_cases hk : k' = k
    · subst hk
      simp [dget] at h
      simp [h]
    · simp [dget, hk] at h
      exact List.mem_cons_of_mem _ (ih h)

theorem ratFloor_nonneg {x : ℚ} (h : 0 ≤ x) : 0 ≤ ratFloor x := by
  rw [ratFloor_eq_floor]
  exact Int.floor_nonneg.mpr h

theorem roundHalfUpCents_nonneg {x : ℚ} (h : 0 ≤ x) :
    0 ≤ roundHalfUpCents x := by
  have hnum : 0 ≤ x.num := Rat.num_nonneg.mpr h
  rw [roundHalfUpCents, if_pos hnum]
  have h1 : (0 : ℚ) ≤ x * 100 + 1 / 2 := by positivity
  have := ratFloor_nonneg h1
  positivity

theorem aggRows_gross_nonneg {rows : List RevenueRow} {ag : Agg}
    (hag : 0 ≤ ag.gross) (hrev : ∀ r ∈ rows, 0 ≤ r.revenue) :
    0 ≤ (aggRows rows ag).gross := by
  induction rows generalizing ag with
  | nil => exact hag
  | cons r rest ih =>
    rw [aggRows]
    refine ih ?_ (fun r' hr' => hrev r' (List.mem_cons_of_mem _ hr'))
    have := hrev r (List.mem_cons_self _ _)
    simp only [aggStep]
    positivity

theorem calcLoop_spec (q : String) (st : RMState)
    (groups : List (String × List RevenueRow)) :
    calcLoop q st groups =
      (st, groups.filterMap (fun g => calcStep st q g.1 g.2)) := by
  induction groups with
  | nil => rfl
  | cons g rest ih =>
    obtain ⟨a, rows⟩ := g
    rw [calcLoop]
    cases h : calcStep st q a rows with
    | none => simp [h, ih]
    | some p => simp [h, ih]

/-- Unfolding of a successful `calcStep`: the payout's fields. -/
theorem calcStep_eq_some {st : RMState} {q a : String}
    {rows : List RevenueRow} {p : ArtistPayout}
    (h : calcStep st q a rows = some p) :
    ∃ pct, dget st.splits_cache a = some pct ∧
      p.artist = a ∧ p.quarter = q ∧
      p.gross_revenue = (aggRows rows ⟨0, 0, []⟩).gross ∧
      p.artist_share = roundHalfUpCents (p.gross_revenue * pct) ∧
      p.advance_deducted =
        min ((dget st.advances_cache a).getD 0) p.artist_share ∧
      p.net_payout = p.artist_share - p.advance_deducted := by
  unfold calcStep apply_split at h
  cases hd : dget st.splits_cache a with
  | none => rw [hd] at h; simp at h
  | some pct =>
    rw [hd] at h
    simp only [Option.some.injEq] at h
    subst h
    exact ⟨pct, rfl, rfl, rfl, rfl, rfl, rfl, rfl⟩

theorem calcStep_artist {st : RMState} {q a : String}
    {rows : List RevenueRow} {p : ArtistPayout}
    (h : calcStep st q a rows = some p) : p.artist = a := by
  obtain ⟨_, _, ha, _⟩ := calcStep_eq_some h
  exact ha

/-- `calcStep` succeeds exactly when the artist has a split. -/
theorem calcStep_isSome_iff (st : RMState) (q a : String)
    (rows : List RevenueRow) :
    (∃ p, calcStep st q a rows = some p) ↔
      ∃ pct, dget st.splits_cache a = some pct := by
  unfold calcStep apply_split
  cases hd : dget st.splits_cache a <;> simp

theorem mem_addRow {acc : List (String × List RevenueRow)} {k a : String}
    {r : RevenueRow} {rs : List RevenueRow}
    (h : (a, rs) ∈ addRow acc k r) :
    (a, rs) ∈ acc ∨
      (a = k ∧ (rs = [r] ∨ ∃ rs₀, (k, rs₀) ∈ acc ∧ rs = rs₀ ++ [r])) := by
  induction acc with
  | nil =>
    simp only [addRow, List.mem_singleton, Prod.mk.injEq] at h
    exact Or.inr ⟨h.1, Or.inl h.2⟩
  | cons kv rest ih =>
    obtain ⟨k', rs'⟩ := kv
    by_cases hk : k' = k
    · subst hk
      rw [addRow, if_pos rfl] at h
      rcases List.mem_cons.mp h with h1 | h1
      · obtain ⟨ha, hrs⟩ := Prod.mk.injEq .. ▸ h1
        exact Or.inr ⟨ha, Or.inr ⟨rs', List.mem_cons_self _ _, hrs⟩⟩
      · exact Or.inl (List.mem_cons_of_mem _ h1)
    · rw [addRow, if_neg hk] at h
      rcases List.mem_cons.mp h with h1 | h1
      · exact Or.inl (List.mem_cons.mpr (Or.inl h1))
      · rcases ih h1 with h2 | ⟨ha, h2⟩
        · exact Or.inl (List.mem_cons_of_mem _ h2)
        · refine Or.inr ⟨ha, ?_⟩
          rcases h2 with h3 | ⟨rs₀, hmem, hrs⟩
          · exact Or.inl h3
          · exact Or.inr ⟨rs₀, List.mem_cons_of_mem _ hmem, hrs⟩

theorem key_mem_addRow {acc : List (String × List RevenueRow)}
    {k a : String} {r : RevenueRow} :
    (∃ rs, (a, rs) ∈ addRow acc k r) ↔ a = k ∨ ∃ rs, (a, rs) ∈ acc := by
  induction acc with
  | nil => simp [addRow]
  | cons kv rest ih =>
    obtain ⟨k', rs'⟩ := kv
    by_cases hk : k' = k
    · subst hk
      rw [addRow, if_pos rfl]
      constructor
      · rintro ⟨rs, hrs⟩
        rcases List.mem_cons.mp hrs with h1 | h1
        · exact Or.inl (Prod.mk.injEq .. ▸ h1).1
        · exact Or.inr ⟨rs, List.mem_cons_of_mem _ h1⟩
      · rintro (rfl | ⟨rs, hrs⟩)
        · exact ⟨rs' ++ [r], List.mem_cons_self _ _⟩
        · rcases List.mem_cons.mp hrs with h1 | h1
          · obtain ⟨ha, _⟩ := Prod.mk.injEq .. ▸ h1
            subst ha
            exact ⟨rs' ++ [r], List.mem_cons_self _ _⟩
          · exact ⟨rs, List.mem_cons_of_mem _ h1⟩
    · rw [addRow, if_neg hk]
      constructor
      · rintro ⟨rs, hrs⟩
        rcases List.mem_cons.mp hrs with h1 | h1
        · exact Or.inr ⟨rs, List.mem_cons.mpr (Or.inl h1)⟩
        · rcases ih.mp ⟨rs, h1⟩ with h2 | ⟨rs₀, h2⟩
          · exact Or.inl h2
          · exact Or.inr ⟨rs₀, List.mem_cons_of_mem _ h2⟩
      · rintro (rfl | ⟨rs, hrs⟩)
        · obtain ⟨rs₀, h2⟩ := ih.mpr (Or.inl rfl)
          exact ⟨rs₀, List.mem_cons_of_mem _ h2⟩
        · rcases List.mem_cons.mp hrs with h1 | h1
          · exact ⟨rs, List.mem_cons.mpr (Or.inl h1)⟩
          · obtain ⟨rs₀, h2⟩ := ih.mpr (Or.inr ⟨rs, h1⟩)
            exact ⟨rs₀, List.mem_cons_of_mem _ h2⟩

/-- The artist keys produced by the grouping loop are exactly the kept
artist keys of the input rows (plus those already in the accumulator). -/
theorem groupRows_key_iff (filt : Option String) (rows : List RevenueRow)
    (acc : List (String × List RevenueRow)) (a : String) :
    (∃ rs, (a, rs) ∈ groupRows filt rows acc) ↔
      (∃ rs, (a, rs) ∈ acc) ∨
        ∃ r ∈ rows, keepRow filt (r.artist.getD "Unknown") ∧
          r.artist.getD "Unknown" = a := by
  induction rows generalizing acc with
  | nil => simp [groupRows]
  | cons r rest ih =>
    rw [groupRows]
    by_cases hkeep : keepRow filt (r.artist.getD "Unknown")
    · rw [if_pos hkeep, ih, key_mem_addRow]
      constructor
      · rintro ((rfl | h) | h)
        · exact Or.inr ⟨r, List.mem_cons_self _ _, hkeep, rfl⟩
        · exact Or.inl h
        · obtain ⟨r', hr', h1, h2⟩ := h
          exact Or.inr ⟨r', List.mem_cons_of_mem _ hr', h1, h2⟩
      · rintro (h | ⟨r', hr', h1, h2⟩)
        · exact Or.inl (Or.inr h)
        · rcases List.mem_cons.mp hr' with rfl | hr2
          · exact Or.inl (Or.inl h2.symm)
          · exact Or.inr ⟨r', hr2, h1, h2⟩
    · rw [if_neg hkeep, ih]
      constructor
      · rintro (h | ⟨r', hr', h1, h2⟩)
        · exact Or.inl h
        · exact Or.inr ⟨r', List.mem_cons_of_mem _ hr', h1, h2⟩
      · rintro (h | ⟨r', hr', h1, h2⟩)
        · exact Or.inl h
        · rcases List.mem_cons.mp hr' with rfl | hr2
          · exact absurd h1 hkeep
          · exact Or.inr ⟨r', hr2, h1, h2⟩

/-- Every row stored by the grouping loop comes from the input (or from
the accumulator). -/
theorem groupRows_rows_sub (filt : Option String) {rows : List RevenueRow}
    {acc : List (String × List RevenueRow)} {a : String}
    {rs : List RevenueRow} (h : (a, rs) ∈ groupRows filt rows acc) :
    ∀ r ∈ rs, (∃ rs₀, (a, rs₀) ∈ acc ∧ r ∈ rs₀) ∨ r ∈ rows := by
  induction rows generalizing acc with
  | nil =>
    intro r hr
    exact Or.inl ⟨rs, h, hr⟩
  | cons r0 rest ih =>
    rw [groupRows] at h
    by_cases hkeep : keepRow filt (r0.artist.getD "Unknown")
    · rw [if_pos hkeep] at h
      intro r hr
      rcases ih h r hr with ⟨rs₀, hmem, hr₀⟩ | hrest
      · rcases mem_addRow hmem with h1 | ⟨rfl, h1⟩
        · exact Or.inl ⟨rs₀, h1, hr₀⟩
        · rcases h1 with rfl | ⟨rs₁, hmem₁, rfl⟩
          · rw [List.mem_singleton] at hr₀
            exact Or.inr (hr₀ ▸ List.mem_cons_self _ _)
          · rcases List.mem_append.mp hr₀ with h2 | h2
            · exact Or.inl ⟨rs₁, hmem₁, h2⟩
            · rw [List.mem_singleton] at h2
              exact Or.inr (h2 ▸ List.mem_cons_self _ _)
      · exact Or.inr (List.mem_cons_of_mem _ hrest)
    · rw [if_neg hkeep] at h
      intro r hr
      rcases ih h r hr with h1 | h1
      · exact Or.inl h1
      · exact Or.inr (List.mem_cons_of_mem _ h1)

/-! ### Claim theorems -/

/-- C1: every `ArtistPayout` returned by `RoyaltyManager.calculate`
satisfies `net_payout = artist_share - advance_deducted`,
`0 ≤ advance_deducted ≤ artist_share`, and `advance_deducted` is at most
the artist's advance balance as it stood before the call (0 when the
artist is absent from the advance ledger).  The hypotheses are the data
model's well-formedness constraints: non-negative split fractions,
non-negative advance balances, non-negative revenue amounts. -/
theorem calculate_payout_invariants (st : RMState) (q : String)
    (filt : Option String) (rows : List RevenueRow)
    (hsp : ∀ kv ∈ st.splits_cache, 0 ≤ kv.2)
    (hadv : ∀ kv ∈ st.advances_cache, 0 ≤ kv.2)
    (hrev : ∀ r ∈ rows, 0 ≤ r.revenue) :
    ∀ p ∈ (calculate st q filt rows).2,
      p.net_payout = p.artist_share - p.advance_deducted ∧
      0 ≤ p.advance_deducted ∧
      p.advance_deducted ≤ p.artist_share ∧
      p.advance_deducted ≤ (dget st.advances_cache p.artist).getD 0 := by
  intro p hp
  rw [calculate, calcLoop_spec] at hp
  obtain ⟨⟨a, rs⟩, hg, hstep⟩ := List.mem_filterMap.mp hp
  obtain ⟨pct, hpct, hart, _, hgross, hshare, hded, hnet⟩ :=
    calcStep_eq_some hstep
  have hrs : ∀ r ∈ rs, r ∈ rows := by
    intro r hr
    rcases groupRows_rows_sub filt hg r hr with ⟨rs₀, h0, _⟩ | h
    · simp at h0
    · exact h
  have hgross0 : 0 ≤ (aggRows rs ⟨0, 0, []⟩).gross :=
    aggRows_gross_nonneg le_rfl (fun r hr => hrev r (hrs r hr))
  have hpct0 : 0 ≤ pct := hsp (a, pct) (dget_mem hpct)
  have hshare0 : 0 ≤ p.artist_share := by
    rw [hshare, hgross]
    exact roundHalfUpCents_nonneg (mul_nonneg hgross0 hpct0)
  have hadv0 : 0 ≤ (dget st.advances_cache a).getD 0 := by
    cases hd : dget st.advances_cache a with
    | none => simp
    | some v => simpa using hadv (a, v) (dget_mem hd)
  refine ⟨hnet, ?_, ?_, ?_⟩
  · rw [hded]
    exact le_min hadv0 hshare0
  · rw [hded]
    exact min_le_right _ _
  · rw [hded, hart]
    exact min_le_left _ _

/-- C1 witness: the spec's own scenario — gross 10000.00, split 0.70,
advance 7500.00 gives artist share 7000.00, deduction 7000.00 and net
payout 0.00, and the invariants hold there. -/
theorem calculate_payout_invariants_witness :
    ∃ p ∈ (calculate ⟨[("A", 7 / 10)], [("A", 7500)]⟩ "Q4 2025" none
        [⟨some "A", some "t1", 10000, 100⟩]).2,
      p.net_payout = p.artist_share - p.advance_deducted ∧
      0 ≤ p.advance_deducted ∧
      p.advance_deducted ≤ p.artist_share ∧
      p.advance_deducted ≤
        (dget (⟨[("A", 7 / 10)], [("A", 7500)]⟩ : RMState).advances_cache
          p.artist).getD 0 := by
  refine ⟨⟨"A", "Q4 2025", 10000, 7 / 10, 7000, 7000, 0, 1, 100⟩,
    by decide, ?_⟩
  exact calculate_payout_invariants ⟨[("A", 7 / 10)], [("A", 7500)]⟩
    "Q4 2025" none [⟨some "A", some "t1", 10000, 100⟩]
    (by decide) (by decide) (by decide) _ (by decide)

/-- C2: `RoyaltyManager.calculate` never mutates the splits cache or the
advances cache — the state after the call equals the state before it,
for every quarter, artist filter and revenue batch. -/
theorem calculate_read_only (st : RMState) (q : String)
    (filt : Option String) (rows : List RevenueRow) :
    (calculate st q filt rows).1.splits_cache = st.splits_cache ∧
      (calculate st q filt rows).1.advances_cache = st.advances_cache := by
  rw [calculate, calcLoop_spec]
  exact ⟨rfl, rfl⟩

/-- Every payout in `calculate`'s output belongs to an artist with a
splits-cache entry. -/
theorem calculate_artist_has_split (st : RMState) (q : String)
    (filt : Option String) (rows : List RevenueRow) :
    ∀ p ∈ (calculate st q filt rows).2,
      ∃ pct, dget st.splits_cache p.artist = some pct := by
  intro p hp
  rw [calculate, calcLoop_spec] at hp
  obtain ⟨⟨a, rs⟩, _, hstep⟩ := List.mem_filterMap.mp hp
  obtain ⟨pct, hpct, hart, _⟩ := calcStep_eq_some hstep
  exact ⟨pct, hart ▸ hpct⟩

/-- An artist with a splits-cache entry and at least one kept revenue row
gets a payout in `calculate`'s output. -/
theorem mem_calculate_of_key (st : RMState) (q : String)
    (filt : Option String) (rows : List RevenueRow) (a : String) (pct : ℚ)
    (hpct : dget st.splits_cache a = some pct)
    (hkey : ∃ r ∈ rows, keepRow filt (r.artist.getD "Unknown") ∧
      r.artist.getD "Unknown" = a) :
    ∃ p ∈ (calculate st q filt rows).2, p.artist = a := by
  obtain ⟨rs, hg⟩ :=
    (groupRows_key_iff filt rows [] a).mpr (Or.inr hkey)
  obtain ⟨p, hstep⟩ :=
    (calcStep_isSome_iff st q a rs).mpr ⟨pct, hpct⟩
  refine ⟨p, ?_, calcStep_artist hstep⟩
  rw [calculate, calcLoop_spec]
  exact List.mem_filterMap.mpr ⟨(a, rs), hg, hstep⟩

/-- C7: an artist with no splits-cache entry never appears in the payout
list returned by `RoyaltyManager.calculate` (it is skipped), and every
other artist that has both a split entry and at least one matching
revenue row still gets a payout — a missing split never empties the rest
of the batch. -/
theorem calculate_missing_split_skips (st : RMState) (q : String)
    (filt : Option String) (rows : List RevenueRow) :
    (∀ p ∈ (calculate st q filt rows).2,
      ∃ pct, dget st.splits_cache p.artist = some pct) ∧
    (∀ a pct, dget st.splits_cache a = some pct →
      (∃ r ∈ rows, keepRow filt (r.artist.getD "Unknown") ∧
        r.artist.getD "Unknown" = a) →
      ∃ p ∈ (calculate st q filt rows).2, p.artist = a) := by
  refine ⟨calculate_artist_has_split st q filt rows, ?_⟩
  intro a pct hpct hkey
  exact mem_calculate_of_key st q filt rows a pct hpct hkey

/-- C7 witness: the spec's scenario — two artists with revenue rows, only
`"A"` has a split; the batch still returns a payout for `"A"`. -/
theorem calculate_missing_split_skips_witness :
    ∃ p ∈ (calculate ⟨[("A", 1 / 2)], []⟩ "Q1 2026" none
      [⟨some "A", none, 100, 0⟩, ⟨some "B", none, 50, 0⟩]).2,
      p.artist = "A" := by
  refine (calculate_missing_split_skips ⟨[("A", 1 / 2)], []⟩ "Q1 2026" none
    [⟨some "A", none, 100, 0⟩, ⟨some "B", none, 50, 0⟩]).2 "A" (1 / 2)
    (by decide) ⟨⟨some "A", none, 100, 0⟩, by decide, by decide, by decide⟩

/-- Labels a row that carries no artist identifier with the literal
artist name `"Unknown"` (and leaves named rows unchanged), mirroring
`row.get("artist", "Unknown")`. -/
def normRow (r : RevenueRow) : RevenueRow :=
  { r with artist := some (r.artist.getD "Unknown") }

theorem normRow_key (r : RevenueRow) :
    (normRow r).artist.getD "Unknown" = r.artist.getD "Unknown" := by
  cases h : r.artist <;> simp [normRow, h]

/-- Mapping a per-row relabelling into every group. -/
def mapGroups (f : RevenueRow → RevenueRow)
    (gs : List (String × List RevenueRow)) :
    List (String × List RevenueRow) :=
  gs.map (fun g => (g.1, g.2.map f))

theorem addRow_map_norm (acc : List (String × List RevenueRow))
    (k : String) (r : RevenueRow) :
    addRow (mapGroups normRow acc) k (normRow r) =
      mapGroups normRow (addRow acc k r) := by
  induction acc with
  | nil => rfl
  | cons kv rest ih =>
    obtain ⟨k', rs'⟩ := kv
    by_cases hk : k' = k
    · subst hk
      simp [addRow, mapGroups]
    · simp only [mapGroups, List.map_cons, addRow, if_neg hk]
      simpa [mapGroups] using ih

theorem groupRows_map_norm (filt : Option String) (rows : List RevenueRow)
    (acc : List (String × List RevenueRow)) :
    groupRows filt (rows.map normRow) (mapGroups normRow acc) =
      mapGroups normRow (groupRows filt rows acc) := by
  induction rows generalizing acc with
  | nil => rfl
  | cons r rest ih =>
    rw [List.map_cons, groupRows, groupRows, normRow_key]
    by_cases hkeep : keepRow filt (r.artist.getD "Unknown")
    · rw [if_pos hkeep, if_pos hkeep, addRow_map_norm, ih]
    · rw [if_neg hkeep, if_neg hkeep, ih]

theorem aggStep_norm (ag : Agg) (r : RevenueRow) :
    aggStep ag (normRow r) = aggStep ag r := rfl

theorem aggRows_map_norm (rows : List RevenueRow) (ag : Agg) :
    aggRows (rows.map normRow) ag = aggRows rows ag := by
  induction rows generalizing ag with
  | nil => rfl
  | cons r rest ih => rw [List.map_cons, aggRows, aggStep_norm, ih, aggRows]

theorem calcStep_map_norm (st : RMState) (q a : String)
    (rows : List RevenueRow) :
    calcStep st q a (rows.map normRow) = calcStep st q a rows := by
  unfold calcStep
  rw [aggRows_map_norm]

/-- C10: a revenue row that carries no artist identifier is not dropped:
`calculate` behaves exactly as if the row were labelled with the literal
artist name `"Unknown"`; when a split entry exists for `"Unknown"`,
rows without an artist produce an ordinary payout under that name, and
when it does not, they are skipped like any artist without a split. -/
theorem calculate_unknown_artist (st : RMState) (q : String)
    (filt : Option String) (rows : List RevenueRow) :
    calculate st q filt rows = calculate st q filt (rows.map normRow) ∧
    (∀ pct, dget st.splits_cache "Unknown" = some pct →
      (∃ r ∈ rows, r.artist = none ∧ keepRow filt "Unknown") →
      ∃ p ∈ (calculate st q filt rows).2, p.artist = "Unknown") ∧
    (dget st.splits_cache "Unknown" = none →
      ∀ p ∈ (calculate st q filt rows).2, p.artist ≠ "Unknown") := by
  refine ⟨?_, ?_, ?_⟩
  · rw [calculate, calculate, calcLoop_spec, calcLoop_spec, groupByArtist,
      groupByArtist]
    have hg : groupRows filt (rows.map normRow) [] =
        mapGroups normRow (groupRows filt rows []) :=
      groupRows_map_norm filt rows []
    rw [hg, mapGroups, List.filterMap_map]
    refine congrArg (Prod.mk st) (List.filterMap_congr ?_)
    intro g _
    exact (calcStep_map_norm st q g.1 g.2).symm
  · intro pct hpct hrow
    obtain ⟨r, hr, hnone, hkeep⟩ := hrow
    refine mem_calculate_of_key st q filt rows "Unknown" pct hpct
      ⟨r, hr, ?_, ?_⟩
    · rw [hnone]
      exact hkeep
    · rw [hnone]
      rfl
  · intro hnone p hp hart
    obtain ⟨pct, hpct⟩ := calculate_artist_has_split st q filt rows p hp
    rw [hart, hnone] at hpct
    exact Option.noConfusion hpct

/-- C10 witness: a single row with no artist key and a split entry for
`"Unknown"` yields a payout under the name `"Unknown"`. -/
theorem calculate_unknown_artist_witness :
    ∃ p ∈ (calculate ⟨[("Unknown", 1 / 2)], []⟩ "Q1 2026" none
      [⟨none, none, 10, 3⟩]).2, p.artist = "Unknown" := by
  refine (calculate_unknown_artist ⟨[("Unknown", 1 / 2)], []⟩ "Q1 2026" none
    [⟨none, none, 10, 3⟩]).2.1 (1 / 2) (by decide)
    ⟨⟨none, none, 10, 3⟩, by decide, rfl, by decide⟩

/-- Filtering a `filterMap` image by a key commutes with filtering the
source, when the step function preserves the key. -/
theorem filter_filterMap_key {α β : Type} (f : α → Option β)
    (keyA : α → String) (keyB : β → String)
    (hf : ∀ a b, f a = some b → keyB b = keyA a) (l : List α) (k : String) :
    (l.filterMap f).filter (fun b => keyB b == k) =
      (l.filter (fun a => keyA a == k)).filterMap f := by
  induction l with
  | nil => rfl
  | cons x xs ih =>
    rw [List.filterMap_cons, List.filter_cons]
    cases hx : f x with
    | none =>
      by_cases hk : keyA x = k
      · simp only [hk, beq_self_eq_true, if_pos, List.filterMap_cons, hx, ih]
      · simp only [beq_iff_eq, hk, if_neg, ih, Bool.false_eq_true,
          not_false_iff, ite_false]
    | some b =>
      have hkb : keyB b = keyA x := hf x b hx
      by_cases hk : keyA x = k
      · rw [if_pos (by simp [hk]), List.filterMap_cons, hx,
          List.filter_cons, if_pos (by simp [hkb, hk]), ih]
      · rw [if_neg (by simp [hk]), List.filter_cons,
          if_neg (by simp [hkb, hk]), ih]

/-- In a list with pairwise-distinct keys, filtering by a member's key
returns exactly that member. -/
theorem filter_key_of_nodup {α : Type} (keyA : α → String) {l : List α}
    (hn : (l.map keyA).Nodup) {c : α} (hc : c ∈ l) :
    l.filter (fun a => keyA a == keyA c) = [c] := by
  induction l with
  | nil => cases hc
  | cons x xs ih =>
    rw [List.map_cons, List.nodup_cons] at hn
    rcases List.mem_cons.mp hc with rfl | hc2
    · rw [List.filter_cons, if_pos (by simp)]
      have hnil : xs.filter (fun a => keyA a == keyA c) = [] := by
        refine List.filter_eq_nil_iff.mpr ?_
        intro a ha
        simp only [beq_iff_eq]
        intro heq
        exact hn.1 (heq ▸ List.mem_map_of_mem keyA ha)
      rw [hnil]
    · have hne : keyA x ≠ keyA c := by
        intro h
        exact hn.1 (h ▸ List.mem_map_of_mem keyA hc2)
      rw [List.filter_cons, if_neg (by simp [hne])]
      exact ih hn.2 hc2

theorem verifyStep_artist {db_splits : List (String × ℚ)}
    {c : ContractRecord} {m : SplitMismatchRec}
    (h : verifyStep db_splits c = some m) : m.artist = c.artist := by
  unfold verifyStep at h
  cases hd : dget db_splits c.artist <;> rw [hd] at h <;> dsimp only at h
  · simp only [Option.some.injEq] at h
    exact h ▸ rfl
  · rename_i db_pct
    by_cases hgt : |db_pct - c.split_pct| > 1 / 1000
    · rw [if_pos hgt] at h
      simp only [Option.some.injEq] at h
      exact h ▸ rfl
    · rw [if_neg hgt] at h
      cases h

/-- C4 counterexample: `verify_splits` walks the contract registry, not
the engine-side map.  An artist tracked only by the engine map (`"A"`)
produces no record at all — in particular no `missing_in_registry`
record — while a registry-only artist (`"B"`) does produce a record, of
kind `"missing_in_db"`. -/
theorem verify_splits_direction_counterexample :
    verify_splits [] [("A", 1 / 2)] = [] ∧
    verify_splits [{ artist := "B", split_pct := 1 / 2 }] [] =
      [{ artist := "B", type := "missing_in_db",
         contract_split := 1 / 2 }] := by
  exact ⟨rfl, by decide⟩

/-- C4 amended: the comparison runs in the opposite direction from the
claim.  For every artist of the contract registry that is absent from
the engine-side map, `verify_splits` emits exactly one record, of kind
`"missing_in_db"`; artists present only in the engine-side map (absent
from the registry) are never reported — the registry's view drives the
walk. -/
theorem verify_splits_missing_in_db (contracts : List ContractRecord)
    (db_splits : List (String × ℚ))
    (hnodup : (contracts.map (fun c => c.artist)).Nodup) :
    (∀ c ∈ contracts, dget db_splits c.artist = none →
      (verify_splits contracts db_splits).filter
          (fun m => m.artist == c.artist) =
        [{ artist := c.artist, type := "missing_in_db",
           contract_split := c.split_pct }]) ∧
    (∀ a, (∀ c ∈ contracts, c.artist ≠ a) →
      ∀ m ∈ verify_splits contracts db_splits, m.artist ≠ a) := by
  constructor
  · intro c hc hnone
    rw [verify_splits,
      filter_filterMap_key (verifyStep db_splits) (fun c => c.artist)
        (fun m => m.artist) (fun a b h => verifyStep_artist h) contracts
        c.artist,
      show contracts.filter (fun a => a.artist == c.artist) = [c] from
        filter_key_of_nodup (fun c => c.artist) hnodup hc]
    simp only [List.filterMap_cons, List.filterMap_nil, verifyStep, hnone]
  · intro a ha m hm
    obtain ⟨c, hc, hstep⟩ := List.mem_filterMap.mp hm
    rw [verifyStep_artist hstep]
    exact ha c hc

/-- C4 amended witness: registry `{B: 0.5, C: 0.3}` against engine map
`{C: 0.3}` — exactly one `missing_in_db` record, for `B`. -/
theorem verify_splits_missing_in_db_witness :
    (verify_splits
        [⟨"B", 1 / 2, none, none, none, "pdf", "active", ""⟩,
         ⟨"C", 3 / 10, none, none, none, "pdf", "active", ""⟩]
        [("C", 3 / 10)]).filter (fun m => m.artist == "B") =
      [{ artist := "B", type := "missing_in_db",
         contract_split := 1 / 2 }] := by
  exact (verify_splits_missing_in_db
    [⟨"B", 1 / 2, none, none, none, "pdf", "active", ""⟩,
     ⟨"C", 3 / 10, none, none, none, "pdf", "active", ""⟩]
    [("C", 3 / 10)] (by decide)).1
    ⟨"B", 1 / 2, none, none, none, "pdf", "active", ""⟩
    (by decide) (by decide)

/-- C8: for an artist present both in the contract registry (as contract
`c`) and in the engine-side map (fraction `db_pct`), `verify_splits`
emits exactly one value-mismatch record — kind string `"mismatch"`,
carrying both fractions — when `|db_pct - c.split_pct| > 0.001`, and no
record for that artist otherwise. -/
theorem verify_splits_epsilon (contracts : List ContractRecord)
    (db_splits : List (String × ℚ))
    (hnodup : (contracts.map (fun c => c.artist)).Nodup)
    (c : ContractRecord) (hc : c ∈ contracts) (db_pct : ℚ)
    (hdb : dget db_splits c.artist = some db_pct) :
    (verify_splits contracts db_splits).filter
        (fun m => m.artist == c.artist) =
      if |db_pct - c.split_pct| > 1 / 1000 then
        [{ artist := c.artist, type := "mismatch",
           contract_split := c.split_pct, db_split := some db_pct }]
      else [] := by
  rw [verify_splits,
    filter_filterMap_key (verifyStep db_splits) (fun c => c.artist)
      (fun m => m.artist) (fun a b h => verifyStep_artist h) contracts
      c.artist,
    show contracts.filter (fun a => a.artist == c.artist) = [c] from
      filter_key_of_nodup (fun c => c.artist) hnodup hc]
  simp only [List.filterMap_cons, List.filterMap_nil, verifyStep, hdb]
  by_cases hgt : |db_pct - c.split_pct| > 1 / 1000
  · rw [if_pos hgt, if_pos hgt]
  · rw [if_neg hgt, if_neg hgt]

/-- C8 witness: engine 0.60 against registry 0.65 produces exactly one
mismatch record carrying both fractions, while a 0.0005 gap (engine
0.6005 vs registry 0.6) produces none. -/
theorem verify_splits_epsilon_witness :
    (verify_splits [⟨"A", 65 / 100, none, none, none, "pdf", "active", ""⟩]
        [("A", 60 / 100)]).filter (fun m => m.artist == "A") =
      [{ artist := "A", type := "mismatch", contract_split := 65 / 100,
         db_split := some (60 / 100) }] ∧
    (verify_splits [⟨"B", 6 / 10, none, none, none, "pdf", "active", ""⟩]
        [("B", 6005 / 10000)]).filter (fun m => m.artist == "B") = [] := by
  constructor
  · exact (verify_splits_epsilon
      [⟨"A", 65 / 100, none, none, none, "pdf", "active", ""⟩]
      [("A", 60 / 100)] (by decide)
      ⟨"A", 65 / 100, none, none, none, "pdf", "active", ""⟩
      (by decide) (60 / 100) (by decide)).trans (by decide)
  · exact (verify_splits_epsilon
      [⟨"B", 6 / 10, none, none, none, "pdf", "active", ""⟩]
      [("B", 6005 / 10000)] (by decide)
      ⟨"B", 6 / 10, none, none, none, "pdf", "active", ""⟩
      (by decide) (6005 / 10000) (by decide)).trans (by decide)

theorem reconStep_artist {q : String} {actual : List (String × ℚ)}
    {p : ArtistPayout} {d : Discrepancy}
    (h : reconStep q actual p = some d) : d.artist = p.artist := by
  unfold reconStep at h
  cases hd : dget actual p.artist <;> rw [hd] at h <;> dsimp only at h
  · simp only [Option.some.injEq] at h
    exact h ▸ rfl
  · rename_i act
    by_cases hne : act ≠ p.net_payout
    · rw [if_pos hne] at h
      simp only [Option.some.injEq] at h
      exact h ▸ rfl
    · rw [if_neg hne] at h
      cases h

theorem reconcile_eq_filterMap {q : String} {calculated : List ArtistPayout}
    {actual : List (String × ℚ)} (hc : calculated ≠ []) (ha : actual ≠ []) :
    reconcile q calculated actual =
      calculated.filterMap (reconStep q actual) := by
  rw [reconcile,
    if_neg (by simp [Bool.or_eq_true, List.isEmpty_iff, hc, ha])]

/-- C5 counterexample: with a non-empty computed list but an empty
actual-payout map, `reconcile` returns no records at all (the guard
`if not calculated or not actual_payouts: return []` fires), although
the claim demands one `missing_actual` record for the computed payout
whose artist has no entry in the actual map. -/
theorem reconcile_empty_actual_counterexample :
    reconcile "Q4 2025" [⟨"A", "Q4 2025", 100, 1 / 2, 50, 0, 50, 0, 0⟩] []
      = [] ∧
    ¬ ∃ d ∈ reconcile "Q4 2025"
        [⟨"A", "Q4 2025", 100, 1 / 2, 50, 0, 50, 0, 0⟩] [],
      d.type = "missing_actual" := by
  exact ⟨rfl, by decide⟩

/-- C5 amended: provided the computed list and the actual map are both
non-empty (otherwise `reconcile` short-circuits to `[]`), each computed
payout whose artist has no actual entry yields exactly one
`missing_actual` record; each one whose actual amount differs from its
`net_payout` (exact comparison) yields exactly one `amount_mismatch`
record carrying the signed difference `actual - computed`; matching
amounts yield nothing; artists present only in the actual map are never
reported. -/
theorem reconcile_per_artist (q : String) (calculated : List ArtistPayout)
    (actual : List (String × ℚ)) (hc : calculated ≠ []) (ha : actual ≠ [])
    (hnodup : (calculated.map (fun p => p.artist)).Nodup) :
    (∀ p ∈ calculated, dget actual p.artist = none →
      (reconcile q calculated actual).filter
          (fun d => d.artist == p.artist) =
        [{ artist := p.artist, quarter := q, type := "missing_actual",
           calculated := p.net_payout }]) ∧
    (∀ p ∈ calculated, ∀ act, dget actual p.artist = some act →
      act ≠ p.net_payout →
      (reconcile q calculated actual).filter
          (fun d => d.artist == p.artist) =
        [{ artist := p.artist, quarter := q, type := "amount_mismatch",
           calculated := p.net_payout, actual := some act,
           difference := some (act - p.net_payout) }]) ∧
    (∀ p ∈ calculated, ∀ act, dget actual p.artist = some act →
      act = p.net_payout →
      (reconcile q calculated actual).filter
          (fun d => d.artist == p.artist) = []) ∧
    (∀ a, (∀ p ∈ calculated, p.artist ≠ a) →
      ∀ d ∈ reconcile q calculated actual, d.artist ≠ a) := by
  have hre := reconcile_eq_filterMap (q := q) hc ha
  refine ⟨?_, ?_, ?_, ?_⟩
  · intro p hp hnone
    rw [hre,
      filter_filterMap_key (reconStep q actual) (fun p => p.artist)
        (fun d => d.artist) (fun a b h => reconStep_artist h) calculated
        p.artist,
      show calculated.filter (fun a => a.artist == p.artist) = [p] from
        filter_key_of_nodup (fun p => p.artist) hnodup hp]
    simp only [List.filterMap_cons, List.filterMap_nil, reconStep, hnone]
  · intro p hp act hact hne
    rw [hre,
      filter_filterMap_key (reconStep q actual) (fun p => p.artist)
        (fun d => d.artist) (fun a b h => reconStep_artist h) calculated
        p.artist,
      show calculated.filter (fun a => a.artist == p.artist) = [p] from
        filter_key_of_nodup (fun p => p.artist) hnodup hp]
    simp only [List.filterMap_cons, List.filterMap_nil, reconStep, hact]
    rw [if_pos hne]
  · intro p hp act hact heq
    rw [hre,
      filter_filterMap_key (reconStep q actual) (fun p => p.artist)
        (fun d => d.artist) (fun a b h => reconStep_artist h) calculated
        p.artist,
      show calculated.filter (fun a => a.artist == p.artist) = [p] from
        filter_key_of_nodup (fun p => p.artist) hnodup hp]
    simp only [List.filterMap_cons, List.filterMap_nil, reconStep, hact]
    rw [if_neg (by simp [heq])]
  · intro a ha2 d hd
    rw [hre] at hd
    obtain ⟨p, hp, hstep⟩ := List.mem_filterMap.mp hd
    rw [reconStep_artist hstep]
    exact ha2 p hp

/-- C5 amended witness: computed payouts for A (net 50), B (net 30) and
C (net 20) against actuals `{B: 31, C: 20, D: 5}` — one `missing_actual`
for A, one `amount_mismatch` for B with signed difference 1, nothing for
C (exact match), and nothing for the actual-only artist D. -/
theorem reconcile_per_artist_witness :
    (reconcile "Q1 2026"
        [⟨"A", "Q1 2026", 100, 1 / 2, 50, 0, 50, 0, 0⟩,
         ⟨"B", "Q1 2026", 60, 1 / 2, 30, 0, 30, 0, 0⟩,
         ⟨"C", "Q1 2026", 40, 1 / 2, 20, 0, 20, 0, 0⟩]
        [("B", 31), ("C", 20), ("D", 5)]).filter
        (fun d => d.artist == "A") =
      [{ artist := "A", quarter := "Q1 2026", type := "missing_actual",
         calculated := 50 }] ∧
    (reconcile "Q1 2026"
        [⟨"A", "Q1 2026", 100, 1 / 2, 50, 0, 50, 0, 0⟩,
         ⟨"B", "Q1 2026", 60, 1 / 2, 30, 0, 30, 0, 0⟩,
         ⟨"C", "Q1 2026", 40, 1 / 2, 20, 0, 20, 0, 0⟩]
        [("B", 31), ("C", 20), ("D", 5)]).filter
        (fun d => d.artist == "B") =
      [{ artist := "B", quarter := "Q1 2026", type := "amount_mismatch",
         calculated := 30, actual := some 31, difference := some 1 }] ∧
    (reconcile "Q1 2026"
        [⟨"A", "Q1 2026", 100, 1 / 2, 50, 0, 50, 0, 0⟩,
         ⟨"B", "Q1 2026", 60, 1 / 2, 30, 0, 30, 0, 0⟩,
         ⟨"C", "Q1 2026", 40, 1 / 2, 20, 0, 20, 0, 0⟩]
        [("B", 31), ("C", 20), ("D", 5)]).filter
        (fun d => d.artist == "C") = [] := by
  have h := reconcile_per_artist "Q1 2026"
    [⟨"A", "Q1 2026", 100, 1 / 2, 50, 0, 50, 0, 0⟩,
     ⟨"B", "Q1 2026", 60, 1 / 2, 30, 0, 30, 0, 0⟩,
     ⟨"C", "Q1 2026", 40, 1 / 2, 20, 0, 20, 0, 0⟩]
    [("B", 31), ("C", 20), ("D", 5)]
    (by decide) (by decide) (by decide)
  refine ⟨?_, ?_, ?_⟩
  · exact (h.1 ⟨"A", "Q1 2026", 100, 1 / 2, 50, 0, 50, 0, 0⟩ (by decide)
      (by decide)).trans (by decide)
  · exact (h.2.1 ⟨"B", "Q1 2026", 60, 1 / 2, 30, 0, 30, 0, 0⟩ (by decide)
      31 (by decide) (by decide)).trans (by decide)
  · exact h.2.2.1 ⟨"C", "Q1 2026", 40, 1 / 2, 20, 0, 20, 0, 0⟩ (by decide)
      20 (by decide) (by decide)

theorem dget_dset_self {α : Type} (d : List (String × α)) (k : String)
    (v : α) : dget (dset d k v) k = some v := by
  induction d with
  | nil => simp [dset, dget]
  | cons kv rest ih =>
    obtain ⟨k', v'⟩ := kv
    by_cases hk : k' = k
    · subst hk
      rw [dset, if_pos rfl, dget, if_pos rfl]
    · rw [dset, if_neg hk, dget, if_neg hk]
      exact ih

theorem findContract_setContractSplit {l : List ContractRecord}
    {artist : String} {c : ContractRecord} (pct : ℚ)
    (h : findContract l artist = some c) :
    findContract (setContractSplit l artist pct) artist =
      some { c with split_pct := pct } := by
  induction l with
  | nil => cases h
  | cons x xs ih =>
    by_cases hx : x.artist = artist
    · rw [findContract, if_pos hx] at h
      simp only [Option.some.injEq] at h
      subst h
      rw [setContractSplit, if_pos hx, findContract, if_pos hx]
    · rw [findContract, if_neg hx] at h
      rw [setContractSplit, if_neg hx, findContract, if_neg hx]
      exact ih h

/-- C3 counterexample: `RoyaltyManager.set_split` performs no range
validation and keeps no audit log — the out-of-range fraction 1.5 is
accepted and stored rather than failing with an error — and
`set_advance` likewise accepts a negative balance. -/
theorem set_split_unvalidated_counterexample :
    (set_split ⟨[], []⟩ "A" (3 / 2)).splits_cache = [("A", 3 / 2)] ∧
    (set_advance ⟨[], []⟩ "A" (-100)).advances_cache = [("A", -100)] := by
  exact ⟨rfl, rfl⟩

/-- C3 amended: the range validation and the audit append live in
`ContractManager.update_split`, not in `RoyaltyManager.set_split`:
`update_split` fails with `ContractError` when the fraction is outside
[0, 1] (and also when the artist has no contract), and an in-range
update of an existing contract replaces that contract's fraction and
appends exactly one entry to the audit log; `RoyaltyManager.set_split`
and `set_advance` store any given value without validation. -/
theorem update_split_validates_and_audits (cst : CMState)
    (now artist : String) (new_pct : ℚ) (reason : String) (st : RMState)
    (amount : ℚ) :
    (¬ (0 ≤ new_pct ∧ new_pct ≤ 1) →
      update_split cst now artist new_pct reason =
        .error "Invalid split percentage. Must be 0.0-1.0.") ∧
    (∀ c, (0 ≤ new_pct ∧ new_pct ≤ 1) →
      findContract cst.contracts artist = some c →
      ∃ st' entry,
        update_split cst now artist new_pct reason = .ok (st', entry) ∧
        st'.audit_log = cst.audit_log ++ [entry] ∧
        findContract st'.contracts artist =
          some { c with split_pct := new_pct }) ∧
    dget (set_split st artist new_pct).splits_cache artist =
      some new_pct ∧
    dget (set_advance st artist amount).advances_cache artist =
      some amount := by
  refine ⟨?_, ?_, dget_dset_self _ _ _, dget_dset_self _ _ _⟩
  · intro h
    rw [update_split, if_pos h]
  · intro c hrange hfind
    rw [update_split, if_neg (not_not_intro hrange), hfind]
    exact ⟨_, _, rfl, rfl, findContract_setContractSplit new_pct hfind⟩

/-- C3 amended witness: updating `A` from 0.5 to the out-of-range 1.5
fails, while updating to 0.6 succeeds, replaces the fraction and appends
exactly one audit entry. -/
theorem update_split_validates_and_audits_witness :
    update_split
        ⟨"Max", [⟨"A", 1 / 2, none, none, none, "pdf", "active", ""⟩], []⟩
        "t0" "A" (3 / 2) "oops" =
      .error "Invalid split percentage. Must be 0.0-1.0." ∧
    ∃ st' entry,
      update_split
          ⟨"Max", [⟨"A", 1 / 2, none, none, none, "pdf", "active", ""⟩], []⟩
          "t0" "A" (3 / 5) "renegotiated" = .ok (st', entry) ∧
      st'.audit_log = [] ++ [entry] ∧
      findContract st'.contracts "A" =
        some ⟨"A", 3 / 5, none, none, none, "pdf", "active", ""⟩ := by
  constructor
  · exact (update_split_validates_and_audits
      ⟨"Max", [⟨"A", 1 / 2, none, none, none, "pdf", "active", ""⟩], []⟩
      "t0" "A" (3 / 2) "oops" ⟨[], []⟩ 0).1 (by decide)
  · exact (update_split_validates_and_audits
      ⟨"Max", [⟨"A", 1 / 2, none, none, none, "pdf", "active", ""⟩], []⟩
      "t0" "A" (3 / 5) "renegotiated" ⟨[], []⟩ 0).2.1
      ⟨"A", 1 / 2, none, none, none, "pdf", "active", ""⟩
      (by decide) (by decide)

/-- C6: `apply_split` returns the revenue times the artist's fraction,
quantized to exactly two decimal places with ROUND_HALF_UP: the result
is always an integer number of cents, and a non-negative product whose
third decimal digit is 5 (an exact half-cent, `(10n+5)/1000`) always
rounds the cent up to `(n+1)/100` — never to even. -/
theorem apply_split_round_half_up (st : RMState) (revenue : ℚ)
    (artist : String) (pct : ℚ)
    (hpct : dget st.splits_cache artist = some pct) :
    apply_split st revenue artist =
      .ok (roundHalfUpCents (revenue * pct)) ∧
    (∃ m : ℤ, roundHalfUpCents (revenue * pct) = (m : ℚ) / 100) ∧
    (∀ n : ℕ, roundHalfUpCents ((10 * n + 5 : ℚ) / 1000) =
      ((n : ℚ) + 1) / 100) := by
  refine ⟨?_, ?_, ?_⟩
  · rw [apply_split, hpct]
  · rw [roundHalfUpCents]
    by_cases h : 0 ≤ (revenue * pct).num
    · exact ⟨ratFloor (revenue * pct * 100 + 1 / 2), by rw [if_pos h]⟩
    · refine ⟨-(ratFloor (-(revenue * pct) * 100 + 1 / 2)), ?_⟩
      rw [if_neg h]
      push_cast
      ring
  · intro n
    have hx : (0 : ℚ) ≤ (10 * n + 5 : ℚ) / 1000 := by positivity
    have hnum : 0 ≤ ((10 * (n : ℚ) + 5) / 1000).num := Rat.num_nonneg.mpr hx
    rw [roundHalfUpCents, if_pos hnum]
    have harg : ((10 * (n : ℚ) + 5) / 1000) * 100 + 1 / 2 = (n : ℚ) + 1 := by
      field_simp
      ring
    have hcast : (n : ℚ) + 1 = ((n + 1 : ℕ) : ℚ) := by push_cast; ring
    rw [harg, ratFloor_eq_floor, hcast, Int.floor_natCast]
    push_cast
    ring

/-- C6 witness: revenue 0.01 at fraction 0.5 — the exact product 0.005
rounds up to 0.01 (bankers' rounding would have given 0.00). -/
theorem apply_split_round_half_up_witness :
    apply_split ⟨[("A", 1 / 2)], []⟩ (1 / 100) "A" =
      .ok (roundHalfUpCents ((1 : ℚ) / 100 * (1 / 2))) ∧
    roundHalfUpCents ((1 : ℚ) / 100 * (1 / 2)) = 1 / 100 := by
  exact ⟨(apply_split_round_half_up ⟨[("A", 1 / 2)], []⟩ (1 / 100) "A"
    (1 / 2) (by decide)).1, by decide⟩

theorem startsWith_iff {α : Type} [DecidableEq α] (n h : List α) :
    startsWith n h = true ↔ ∃ s, h = n ++ s := by
  induction n generalizing h with
  | nil =>
    simp [startsWith]
  | cons a as ih =>
    cases h with
    | nil =>
      simp [startsWith]
    | cons b bs =>
      rw [startsWith, Bool.and_eq_true, decide_eq_true_eq, ih]
      constructor
      · rintro ⟨rfl, s, rfl⟩
        exact ⟨s, rfl⟩
      · rintro ⟨s, hs⟩
        rw [List.cons_append] at hs
        injection hs with h1 h2
        exact ⟨h1.symm, s, h2⟩

theorem containsSeq_iff {α : Type} [DecidableEq α] (n h : List α) :
    containsSeq n h = true ↔ ∃ p s, h = p ++ n ++ s := by
  induction h with
  | nil =>
    rw [containsSeq, List.isEmpty_iff]
    constructor
    · rintro rfl
      exact ⟨[], [], rfl⟩
    · rintro ⟨p, s, hs⟩
      rcases List.append_eq_nil.mp (List.append_eq_nil.mp hs.symm).1 with ⟨_, h2⟩
      exact h2
  | cons b bs ih =>
    rw [containsSeq, Bool.or_eq_true, startsWith_iff, ih]
    constructor
    · rintro (⟨s, hs⟩ | ⟨p, s, rfl⟩)
      · exact ⟨[], s, by simpa using hs⟩
      · exact ⟨b :: p, s, by simp⟩
    · rintro ⟨p, s, hp⟩
      cases p with
      | nil =>
        exact Or.inl ⟨s, by simpa using hp⟩
      | cons x xs =>
        rw [List.cons_append, List.cons_append] at hp
        injection hp with h1 h2
        exact Or.inr ⟨xs, s, by simpa using h2⟩

/-- `rule.condition in issue.lower()` holds exactly when the condition's
characters occur contiguously inside the lower-cased issue. -/
theorem ruleHits_iff (rule : EscalationRule) (from_agent issue : String) :
    ruleHits rule from_agent issue = true ↔
      rule.from_agent = from_agent ∧
        ∃ p s, (strLower issue).data = p ++ rule.condition.data ++ s := by
  rw [ruleHits, Bool.and_eq_true, decide_eq_true_eq, substrB,
    containsSeq_iff]

/-- The `for rule in self.escalation_rules` loop returns the first
matching rule, or nothing when no rule matches. -/
theorem escFind_first (from_agent issue : String)
    (rules : List EscalationRule) :
    (∃ pre rule suf, rules = pre ++ rule :: suf ∧
        ruleHits rule from_agent issue = true ∧
        (∀ r ∈ pre, ruleHits r from_agent issue = false) ∧
        escFind from_agent issue rules = some rule) ∨
      ((∀ r ∈ rules, ruleHits r from_agent issue = false) ∧
        escFind from_agent issue rules = none) := by
  induction rules with
  | nil => exact Or.inr ⟨by simp, rfl⟩
  | cons r rest ih =>
    by_cases hr : ruleHits r from_agent issue = true
    · refine Or.inl ⟨[], r, rest, rfl, hr, by simp, ?_⟩
      rw [escFind, if_pos hr]
    · have hrf : ruleHits r from_agent issue = false :=
        Bool.eq_false_iff.mpr hr
      rcases ih with ⟨pre, rule, suf, heq, hhit, hpre, hfind⟩ | ⟨hall, hfind⟩
      · refine Or.inl ⟨r :: pre, rule, suf, by rw [heq, List.cons_append],
          hhit, ?_, ?_⟩
        · intro r' hr'
          rcases List.mem_cons.mp hr' with rfl | h2
          · exact hrf
          · exact hpre r' h2
        · rw [escFind, if_neg hr]
          exact hfind
      · refine Or.inr ⟨?_, ?_⟩
        · intro r' hr'
          rcases List.mem_cons.mp hr' with rfl | h2
          · exact hrf
          · exact hall r' h2
        · rw [escFind, if_neg hr]
          exact hfind

/-- C9: `Director.escalate` returns exactly one action — the action of
the first rule in the ordered escalation-rule list whose source agent
equals the caller's agent and whose condition occurs as a substring of
the lower-cased issue; when no rule matches, the returned action is
`"notify_admin"`, so no issue is ever dropped without an action. -/
theorem escalate_first_match (st : DirState) (now issue from_agent : String) :
    (∃ pre rule suf, st.escalation_rules = pre ++ rule :: suf ∧
        rule.from_agent = from_agent ∧
        (∃ p s, (strLower issue).data = p ++ rule.condition.data ++ s) ∧
        (∀ r ∈ pre, ¬ (r.from_agent = from_agent ∧
          ∃ p s, (strLower issue).data = p ++ r.condition.data ++ s)) ∧
        (escalate st now issue from_agent).2.action = rule.action) ∨
      ((∀ r ∈ st.escalation_rules, ¬ (r.from_agent = from_agent ∧
          ∃ p s, (strLower issue).data = p ++ r.condition.data ++ s)) ∧
        (escalate st now issue from_agent).2.action = "notify_admin") := by
  rcases escFind_first from_agent issue st.escalation_rules with
    ⟨pre, rule, suf, heq, hhit, hpre, hfind⟩ | ⟨hall, hfind⟩
  · obtain ⟨hfa, hsub⟩ := (ruleHits_iff rule from_agent issue).mp hhit
    refine Or.inl ⟨pre, rule, suf, heq, hfa, hsub, ?_, ?_⟩
    · intro r hr hcontra
      have := (ruleHits_iff r from_agent issue).mpr hcontra
      rw [hpre r hr] at this
      cases this
    · rw [escalate, hfind]
  · refine Or.inr ⟨?_, ?_⟩
    · intro r hr hcontra
      have := (ruleHits_iff r from_agent issue).mpr hcontra
      rw [hall r hr] at this
      cases this
    · rw [escalate, hfind]

end RatKernelComputable

end MusicLabel
